import Mathlib

/-!
Verification of the groq-subtitle-generator backend.

This file gives a shallow embedding of the backend's core algorithms and
proves properties of them:

* the segment normalizer of subtitle_service.py
  (_optimize_segments_for_subtitles, _split_long_segment, _remove_overlaps);
* the hallucination filter and segment converter of transcription_service.py
  (_is_likely_hallucination, _convert_groq_result);
* the batch translation reassembler of translation_service.py
  (translate_segments, _parse_batch_translation);
* the job pipeline orchestrator and HTTP guards of main.py.

Modelling conventions:

* Python floats are modelled as exact rationals; the constants 0.05, 0.1,
  2.5, 7.0 become the rationals 1/20, 1/10, 5/2, 7.
* Python strings are modelled as lists of characters; the whitespace class
  of str.strip and str.split is modelled by Char.isWhitespace, and
  str.isalnum by Char.isAlphanum (faithful on ASCII text).
* Fallible stages (network calls, subprocesses) are modelled as explicit
  outcome arguments of type Except, one per call the orchestrator makes.
-/

/-! ## Python string primitives -/

/-- Whitespace test used by str.strip and str.split. -/
def pyIsSpace (c : Char) : Bool := c.isWhitespace

/-- Python str.strip: remove leading and trailing whitespace. -/
def pyStrip (s : List Char) : List Char :=
  ((s.dropWhile pyIsSpace).reverse.dropWhile pyIsSpace).reverse

/-- One step of the right fold implementing str.split(): group maximal
runs of non-whitespace characters, where the head of the accumulator is
the word currently being built. -/
def pySplitStep (c : Char) (gs : List (List Char)) : List (List Char) :=
  if pyIsSpace c then
    match gs with
    | [] => []
    | g :: _ => if g = [] then gs else [] :: gs
  else
    match gs with
    | [] => [[c]]
    | g :: rest => (c :: g) :: rest

/-- Python str.split() with no argument: split on runs of whitespace,
discarding empty words. -/
def pySplit (s : List Char) : List (List Char) :=
  match s.foldr pySplitStep [] with
  | [] :: rest => rest
  | r => r

/-- Python ' '.join: interleave a single space between the given pieces. -/
def joinSpace : List (List Char) → List Char
  | [] => []
  | [w] => w
  | w :: ws => w ++ ' ' :: joinSpace ws

/-- Python str.lower (ASCII model). -/
def pyLower (s : List Char) : List Char := s.map Char.toLower

/-- Python str.isalnum: nonempty and every character alphanumeric. -/
def pyIsAlnum (s : List Char) : Bool := !s.isEmpty && s.all Char.isAlphanum

/-- Python int() truncation toward zero, applied to an exact rational. -/
def pyTrunc (q : ℚ) : Int := if 0 ≤ q then ⌊q⌋ else -⌊-q⌋

/-! ## Data model

A transcription segment (models.requests.TranscriptionSegment).  The field
name stop stands for the Python attribute end, which is a reserved word in
Lean. -/

structure Segment where
  start : ℚ
  stop : ℚ
  text : List Char
  confidence : ℚ
deriving DecidableEq, Repr

instance : Inhabited Segment := ⟨⟨0, 0, [], 0⟩⟩

/-! ## Stable sort

Python's list.sort is a stable sort; any stable sort computes the same
output list, so we model it by stable insertion sort. -/

/-- Insert x before the first element t with le x t; keeps the relative
order of elements that compare equal, as Python's stable sort does. -/
def pySortInsert (le : α → α → Bool) (x : α) : List α → List α
  | [] => [x]
  | t :: ts => if le x t then x :: t :: ts else t :: pySortInsert le x ts

/-- Stable sort modelling Python's list.sort(key=...). -/
def pySort (le : α → α → Bool) (l : List α) : List α :=
  l.foldr (pySortInsert le) []

/-! ## Segment normalizer (subtitle_service.py) -/

/-- Minimum-duration adjustment of _optimize_segments_for_subtitles: with
min_duration = max(1.0, 0.05 * len(text)), if the duration is below it the
end timestamp is pushed out to start + min_duration. -/
def minAdjust (seg : Segment) : Segment :=
  let d := seg.stop - seg.start
  let minD := max 1 ((seg.text.length : ℚ) * (1 / 20))
  if d < minD then { seg with stop := seg.start + minD } else seg

/-- Body of the loop in _split_long_segment: for each index i of the given
list (Python: for i in range(num_parts)), emit the i-th part, stopping
early (Python break) if the word slice would start past the end. cur is
the running start time, pd the common part duration. -/
def splitGoL (ws : List (List Char)) (n wpp : Nat) (conf pd : ℚ) :
    List Nat → ℚ → List Segment
  | [], _ => []
  | i :: is, cur =>
    if ws.length ≤ i * wpp then []
    else
      let endIdx := if i < n - 1 then (i + 1) * wpp else ws.length
      let txt := joinSpace ((ws.drop (i * wpp)).take (endIdx - i * wpp))
      { start := cur, stop := cur + pd, text := txt, confidence := conf } ::
        splitGoL ws n wpp conf pd is (cur + pd)

/-- subtitle_service._split_long_segment.  A segment with at most one word
is returned unchanged (the same object); otherwise the words are spread
over num_parts = int(duration / max_duration) + 1 parts of equal duration.
The caller only invokes this with duration > max_duration > 0, for which
the Nat-valued part count is faithful to the Python int arithmetic. -/
def splitLongSegment (seg : Segment) (maxDuration : ℚ) : List Segment :=
  let ws := pySplit seg.text
  if ws.length ≤ 1 then [seg]
  else
    let d := seg.stop - seg.start
    let n := (pyTrunc (d / maxDuration) + 1).toNat
    let wpp := ws.length / n
    splitGoL ws n wpp seg.confidence (d / (n : ℚ)) (List.range n) seg.start

/-- Per-segment body of the loop in _optimize_segments_for_subtitles:
drop whitespace-only text, apply the minimum-duration adjustment, and
split when the duration (computed before the adjustment, exactly as the
Python code does) exceeds 7.0 seconds. -/
def processSegment (seg : Segment) : List Segment :=
  if pyStrip seg.text = [] then []
  else
    let d := seg.stop - seg.start
    if 7 < d then splitLongSegment (minAdjust seg) 7 else [minAdjust seg]

/-- Sequential cleaning pass of _remove_overlaps, after the sort: each
segment whose start lies before the previous kept segment's end is pushed
to previous.end + 0.1, and its end repaired to start + 1.0 if needed. -/
def removeOverlapsGo (last : Segment) : List Segment → List Segment
  | [] => []
  | s :: rest =>
    let s1 :=
      if s.start < last.stop then
        let s2 := { s with start := last.stop + 1 / 10 }
        if s2.stop ≤ s2.start then { s2 with stop := s2.start + 1 } else s2
      else s
    s1 :: removeOverlapsGo s1 rest

/-- subtitle_service._remove_overlaps: sort by start, keep the first
segment unconditionally, then run the cleaning pass. -/
def removeOverlaps (segs : List Segment) : List Segment :=
  match pySort (fun a b => decide (a.start ≤ b.start)) segs with
  | [] => []
  | s :: rest => s :: removeOverlapsGo s rest

/-- subtitle_service._optimize_segments_for_subtitles, as a function from
input segment values to output segment values. -/
def optimizeSegmentsForSubtitles (segs : List Segment) : List Segment :=
  removeOverlaps ((segs.map processSegment).flatten)

/-! ## Hallucination filter and segment converter (transcription_service.py) -/

/-- A raw segment of the engine's verbose response, as consumed by
_convert_groq_result: fetched start and end times (with the 0.0 default
already applied), the raw text, and the optional avg_logprob and
confidence entries. -/
structure RawSegment where
  start : ℚ
  stop : ℚ
  text : List Char
  avgLogprob : Option ℚ
  confidence : Option ℚ
deriving DecidableEq, Repr

/-- Test of _is_likely_hallucination's second indicator:
len(set(text.replace(' ', ''))) == 1, i.e. the space-stripped text is a
nonempty run of a single character. -/
def allNonSpaceSame (t : List Char) : Bool :=
  match t.filter (fun c => c != ' ') with
  | [] => false
  | c :: rest => rest.all (fun d => d == c)

/-- transcription_service._is_likely_hallucination.  Texts whose stripped
length is below 2 are never flagged; otherwise the stripped, lowercased
text is flagged when it has length at most 2 and is not alphanumeric, or
length above 20 with all non-space characters identical. -/
def isLikelyHallucination (text : List Char) : Bool :=
  if text = [] || (pyStrip text).length < 2 then false
  else
    let t := pyLower (pyStrip text)
    (decide (t.length ≤ 2) && !pyIsAlnum t) ||
      (decide (20 < t.length) && allNonSpaceSame t)

/-- Clamp to the confidence interval [0.1, 1.0]:
max(0.1, min(1.0, q)). -/
def clampConf (q : ℚ) : ℚ := max (1 / 10) (min 1 q)

/-- Per-segment conversion of _convert_groq_result (segmented branch):
strip the text, drop empty or hallucinated segments, derive the
confidence (avg_logprob first, then a supplied confidence, then the 0.8
default, with a final clamp applied in every case exactly as the code
does), and repair an inverted timestamp pair from the word count at 2.5
words per second.  Returns none when the segment is skipped. -/
def convertSegment (raw : RawSegment) : Option Segment :=
  let text := pyStrip raw.text
  if text = [] then none
  else if isLikelyHallucination text then none
  else
    let conf0 : ℚ :=
      match raw.avgLogprob with
      | some lp => clampConf ((lp + 3) / 3)
      | none =>
        match raw.confidence with
        | some c => c
        | none => 8 / 10
    let conf := clampConf conf0
    let stop :=
      if raw.stop ≤ raw.start then
        raw.start + max 1 (((pySplit text).length : ℚ) / (5 / 2))
      else raw.stop
    some { start := raw.start, stop := stop, text := text, confidence := conf }

/-! ## Batch translation reassembler (translation_service.py) -/

/-- Digit-run parser for Python int(): after an initial digit, digits may
continue directly or after a single underscore. -/
def pdGo (acc : Nat) : List Char → Option Nat
  | [] => some acc
  | '_' :: c :: cs =>
    if c.isDigit then pdGo (acc * 10 + (c.toNat - '0'.toNat)) cs else none
  | c :: cs =>
    if c.isDigit then pdGo (acc * 10 + (c.toNat - '0'.toNat)) cs else none

/-- Unsigned part of Python int(): a nonempty digit sequence, with single
underscores allowed between digits. -/
def parseUDigits : List Char → Option Nat
  | [] => none
  | c :: cs => if c.isDigit then pdGo (c.toNat - '0'.toNat) cs else none

/-- Python int() applied to a string (ASCII model): strip whitespace,
allow one leading sign, then an underscore-grouped digit run; any other
input raises ValueError, modelled as none. -/
def pyInt (s : List Char) : Option Int :=
  match pyStrip s with
  | '+' :: rest => (parseUDigits rest).map Int.ofNat
  | '-' :: rest => (parseUDigits rest).map (fun n => -(n : Int))
  | t => (parseUDigits t).map Int.ofNat

/-- Python str.split('\n'): cut at every newline, keeping empty lines. -/
def splitLines (s : List Char) : List (List Char) :=
  s.foldr
    (fun c acc =>
      if c = '\n' then [] :: acc
      else
        match acc with
        | [] => [[c]]
        | g :: rest => (c :: g) :: rest)
    [[]]

/-- Marker extraction of _parse_batch_translation for one response line:
strip it; require a nonempty line starting with an opening bracket and
containing a closing one; take the first closing bracket as marker end;
parse the characters between the brackets with int(); on success return
the index with the stripped remainder of the line. -/
def extractMarker (line : List Char) : Option (Int × List Char) :=
  let l := pyStrip line
  if l = [] then none
  else if l.head? ≠ some '[' then none
  else
    match l.findIdx? (fun c => c == ']') with
    | none => none
    | some me =>
      if me = 0 then none
      else
        match pyInt ((l.drop 1).take (me - 1)) with
        | none => none
        | some idx => some (idx, pyStrip (l.drop (me + 1)))

/-- Insert into the segment_map dict: a later line with the same index
overwrites the earlier entry. -/
def mapInsert (m : List (Int × List Char)) (k : Int) (v : List Char) :
    List (Int × List Char) :=
  match m with
  | [] => [(k, v)]
  | (k2, v2) :: rest =>
    if k2 = k then (k, v) :: rest else (k2, v2) :: mapInsert rest k v

/-- Lookup in the segment_map dict. -/
def mapGet (m : List (Int × List Char)) (k : Int) : Option (List Char) :=
  match m with
  | [] => none
  | (k2, v) :: rest => if k2 = k then some v else mapGet rest k

/-- First loop of _parse_batch_translation: scan every line of the
response and collect the index-to-text map. -/
def buildSegmentMap (lines : List (List Char)) : List (Int × List Char) :=
  lines.foldl
    (fun m line =>
      match extractMarker line with
      | none => m
      | some (k, v) => mapInsert m k v)
    []

/-- Second loop of _parse_batch_translation: for i, original in
enumerate(original_segments), emit the original segment with its text
replaced by the mapped translation when index i is present. -/
def parseGo (m : List (Int × List Char)) : Nat → List Segment → List Segment
  | _, [] => []
  | i, o :: os =>
    { o with text := (mapGet m (i : Int)).getD o.text } :: parseGo m (i + 1) os

/-- translation_service._parse_batch_translation. -/
def parseBatchTranslation (translatedText : List Char)
    (originalSegments : List Segment) : List Segment :=
  parseGo (buildSegmentMap (splitLines (pyStrip translatedText))) 0
    originalSegments

/-- Batch loop of translate_segments, fuelled by the input length (each
iteration consumes ten segments, so any fuel at least the input length
yields the loop's result): batch k of ten segments is translated with the
engine's k-th response and reassembled with _parse_batch_translation.
The response argument is the engine's text for each batch as given to the
parser (i.e. after _post_process_translation). -/
def translateLoop : Nat → (Nat → List Char) → List Segment → List Segment
  | 0, _, _ => []
  | fuel + 1, responses, segs =>
    if segs = [] then []
    else
      parseBatchTranslation (responses 0) (segs.take 10) ++
        translateLoop fuel (fun k => responses (k + 1)) (segs.drop 10)

/-- translation_service.translate_segments: skip translation entirely when
the lowercased language codes coincide, otherwise translate in batches of
ten. -/
def translateSegments (segs : List Segment) (src tgt : List Char)
    (responses : Nat → List Char) : List Segment :=
  if pyLower src = pyLower tgt then segs
  else translateLoop segs.length responses segs

/-! ## Job state machine and pipeline orchestrator (main.py)

Job ids, language codes, filenames and error messages are lists of
characters; media buffers are lists of bytes. -/

/-- models.requests.TranscriptionResult. -/
structure TranscriptionResult where
  text : List Char
  segments : List Segment
  detectedLanguage : List Char
  confidence : ℚ
deriving DecidableEq

/-- The status strings stored in active_jobs records. -/
inductive JobStatus where
  | uploaded
  | extractingAudio
  | transcribing
  | transcriptionComplete
  | translating
  | generatingSubtitles
  | renderingVideo
  | completed
  | failed
deriving DecidableEq, Repr

/-- One record of the active_jobs dictionary.  Fields that every record
reaching the modelled stages carries (source/target language) are plain;
fields the pipeline deletes or adds (video_data, transcription_result,
result_video, error) are optional. -/
structure Job where
  status : JobStatus
  progress : Nat
  error : Option (List Char)
  videoData : Option (List Nat)
  transcriptionResult : Option TranscriptionResult
  resultVideo : Option (List Nat)
  sourceLanguage : List Char
  targetLanguage : List Char
deriving DecidableEq

/-- The active_jobs dictionary, keyed by job id. -/
abbrev JobMap := List (List Char × Job)

/-- Dictionary lookup in active_jobs. -/
def jLookup (jobs : JobMap) (id : List Char) : Option Job :=
  match jobs with
  | [] => none
  | (k, j) :: rest => if k = id then some j else jLookup rest id

/-- Dictionary write active_jobs[id] = j: replace the existing record or
append a new one. -/
def jInsert (jobs : JobMap) (id : List Char) (j : Job) : JobMap :=
  match jobs with
  | [] => [(id, j)]
  | (k, j2) :: rest =>
    if k = id then (id, j) :: rest else (k, j2) :: jInsert rest id j

/-- Dictionary deletion del active_jobs[id] (keys are unique in a Python
dict; the model removes every binding of the key). -/
def jErase (jobs : JobMap) (id : List Char) : JobMap :=
  match jobs with
  | [] => []
  | (k, j) :: rest =>
    if k = id then jErase rest id else (k, j) :: jErase rest id

/-- The shared except-branch of both background tasks: if the job id is
still present, mark the record failed, store the exception message and
reset progress to 0. -/
def failJob (jobs : JobMap) (id : List Char) (msg : List Char) : JobMap :=
  match jLookup jobs id with
  | none => jobs
  | some j =>
    jInsert jobs id
      { j with status := JobStatus.failed, error := some msg, progress := 0 }

/-- main.process_video_background.  The two effectful stages (audio
extraction and transcription) are passed as outcomes; an exception in
either is caught by the surrounding try and routed to failJob.  A missing
job record raises KeyError, equally caught, and leaves the map unchanged
because the except branch checks membership first. -/
def processVideoBackground (jobs : JobMap) (id : List Char)
    (extractOutcome : Except (List Char) Unit)
    (transcribeOutcome : Except (List Char) TranscriptionResult)
    (sourceLanguage : Option (List Char)) : JobMap :=
  match jLookup jobs id with
  | none => jobs
  | some j =>
    let j1 := { j with progress := 20, status := JobStatus.extractingAudio }
    let jobs1 := jInsert jobs id j1
    match extractOutcome with
    | Except.error e => failJob jobs1 id e
    | Except.ok _ =>
      let j2 := { j1 with progress := 50, status := JobStatus.transcribing }
      let jobs2 := jInsert jobs1 id j2
      match transcribeOutcome with
      | Except.error e => failJob jobs2 id e
      | Except.ok tr =>
        let src :=
          match sourceLanguage with
          | some s => s
          | none =>
            if tr.detectedLanguage = [] then ['e', 'n']
            else tr.detectedLanguage
        jInsert jobs2 id
          { j2 with
            transcriptionResult := some tr
            sourceLanguage := src
            status := JobStatus.transcriptionComplete
            progress := 60 }

/-- The translation step of continue_processing_after_transcription: when
the job's language codes differ (compared verbatim), consult the
translation outcome and rebuild the TranscriptionResult from the
translated segments (text re-joined with spaces, detected language set to
the source code, confidence carried over); otherwise use the edited
transcription unchanged. -/
def finalTranscription (j : Job) (edited : TranscriptionResult)
    (translateOutcome : Except (List Char) (List Segment)) :
    Except (List Char) TranscriptionResult :=
  if j.sourceLanguage ≠ j.targetLanguage then
    match translateOutcome with
    | Except.error e => Except.error e
    | Except.ok tsegs =>
      Except.ok
        { text := joinSpace (tsegs.map Segment.text)
          segments := tsegs
          detectedLanguage := j.sourceLanguage
          confidence := edited.confidence }
  else Except.ok edited

/-- main.continue_processing_after_transcription.  The translation call,
the SRT generation and the render call are passed as outcomes.  Reading
the deleted video_data key of a completed job raises KeyError, caught
like every other exception.  On success the record becomes completed with
progress 100, holds the rendered bytes, and releases the video and
transcription buffers. -/
def continueProcessingAfterTranscription (jobs : JobMap) (id : List Char)
    (edited : TranscriptionResult)
    (translateOutcome : Except (List Char) (List Segment))
    (srtOutcome : Except (List Char) (List Char))
    (renderOutcome : Except (List Char) (List Nat)) : JobMap :=
  match jLookup jobs id with
  | none => jobs
  | some j =>
    let j1 := { j with status := JobStatus.translating, progress := 70 }
    let jobs1 := jInsert jobs id j1
    match finalTranscription j edited translateOutcome with
    | Except.error e => failJob jobs1 id e
    | Except.ok _ =>
      let j2 :=
        { j1 with status := JobStatus.generatingSubtitles, progress := 80 }
      let jobs2 := jInsert jobs1 id j2
      match srtOutcome with
      | Except.error e => failJob jobs2 id e
      | Except.ok _ =>
        match j.videoData with
        | none => failJob jobs2 id (['v', 'i', 'd', 'e', 'o', '_', 'd',
            'a', 't', 'a'])
        | some _ =>
          let j3 :=
            { j2 with status := JobStatus.renderingVideo, progress := 90 }
          let jobs3 := jInsert jobs2 id j3
          match renderOutcome with
          | Except.error e => failJob jobs3 id e
          | Except.ok resultBytes =>
            jInsert jobs3 id
              { j3 with
                status := JobStatus.completed
                progress := 100
                resultVideo := some resultBytes
                videoData := none
                transcriptionResult := none }

/-- Errors surfaced by the HTTP endpoints, in the spec's vocabulary: the
404 responses are NotFound and the 400 state-guard responses are
InvalidState. -/
inductive ApiError where
  | notFound
  | invalidState
deriving DecidableEq, Repr

/-- Guard of main.continue_with_transcription: 404 for an unknown id,
400 unless the job's status is transcription_complete; on success the
continuation task is scheduled. -/
def continueWithTranscription (jobs : JobMap) (id : List Char) :
    Except ApiError Unit :=
  match jLookup jobs id with
  | none => Except.error ApiError.notFound
  | some j =>
    if j.status ≠ JobStatus.transcriptionComplete then
      Except.error ApiError.invalidState
    else Except.ok ()

/-- main.download_video: 404 for an unknown id, 400 unless completed, 404
if the rendered bytes are absent; otherwise return the bytes and delete
the job record (the streaming generator yields the bytes and then runs
cleanup_job). -/
def downloadVideo (jobs : JobMap) (id : List Char) :
    Except ApiError (List Nat × JobMap) :=
  match jLookup jobs id with
  | none => Except.error ApiError.notFound
  | some j =>
    if j.status ≠ JobStatus.completed then Except.error ApiError.invalidState
    else
      match j.resultVideo with
      | none => Except.error ApiError.notFound
      | some resultBytes => Except.ok (resultBytes, jErase jobs id)

/-! ## Heap view of the segment normalizer

The functional model above computes the output segment values.  To reason
about which Python objects _optimize_segments_for_subtitles mutates, this
second view makes object identity explicit: a store holds the segment
objects, and lists of segments are lists of store indices.  The caller's
list is a list of indices that the function never touches: the code
builds a fresh local list (optimized_segments), sorts that local list,
and mutates fields of the shared objects through it. -/

/-- The object store. -/
abbrev Store := List Segment

/-- Read the segment object at a reference (references produced by the
model are always in bounds). -/
def storeGet (st : Store) (r : Nat) : Segment := List.getD st r default

/-- Write the segment object at a reference. -/
def storeSet (st : Store) (r : Nat) (seg : Segment) : Store :=
  List.set st r seg

/-- Heap version of the per-segment loop of
_optimize_segments_for_subtitles: the minimum-duration adjustment writes
the end field of the input object in place; a split allocates fresh
objects for the parts, except that _split_long_segment returns the input
object itself when the text has at most one word. -/
def heapPhase1 (st : Store) : List Nat → Store × List Nat
  | [] => (st, [])
  | r :: rs =>
    let seg := storeGet st r
    if pyStrip seg.text = [] then heapPhase1 st rs
    else
      let d := seg.stop - seg.start
      let minD := max 1 ((seg.text.length : ℚ) * (1 / 20))
      let st1 :=
        if d < minD then storeSet st r { seg with stop := seg.start + minD }
        else st
      if 7 < d then
        let seg1 := storeGet st1 r
        if (pySplit seg1.text).length ≤ 1 then
          let out := heapPhase1 st1 rs
          (out.1, r :: out.2)
        else
          let parts := splitLongSegment seg1 7
          let newRefs := (List.range parts.length).map (fun k => st1.length + k)
          let out := heapPhase1 (st1 ++ parts) rs
          (out.1, newRefs ++ out.2)
      else
        let out := heapPhase1 st1 rs
        (out.1, r :: out.2)

/-- Heap version of the cleaning pass of _remove_overlaps: overlap repair
writes the start (and possibly end) fields of the objects in place. -/
def heapRemoveOverlapsGo (st : Store) (last : Nat) :
    List Nat → Store × List Nat
  | [] => (st, [])
  | r :: rs =>
    let lastSeg := storeGet st last
    let seg := storeGet st r
    let st1 :=
      if seg.start < lastSeg.stop then
        let stA := storeSet st r { seg with start := lastSeg.stop + 1 / 10 }
        let segA := storeGet stA r
        if segA.stop ≤ segA.start then
          storeSet stA r { segA with stop := segA.start + 1 }
        else stA
      else st
    let out := heapRemoveOverlapsGo st1 r rs
    (out.1, r :: out.2)

/-- Heap version of _remove_overlaps: the sort reorders only the local
reference list (with the keys read from the store before any mutation of
this pass, as Python sorts before the cleaning loop runs). -/
def heapRemoveOverlaps (st : Store) (refs : List Nat) : Store × List Nat :=
  match pySort
      (fun a b => decide ((storeGet st a).start ≤ (storeGet st b).start))
      refs with
  | [] => (st, [])
  | r :: rest =>
    let out := heapRemoveOverlapsGo st r rest
    (out.1, r :: out.2)

/-- Heap version of _optimize_segments_for_subtitles: returns the final
store together with the fresh list the function returns.  The caller's
index list is returned to the caller unchanged — the function never
reorders or rebinds it. -/
def heapOptimize (st : Store) (refs : List Nat) : Store × List Nat :=
  let out := heapPhase1 st refs
  heapRemoveOverlaps out.1 out.2

/-! ## Spec-side description of the split (for comparison with the code)

The spec describes the split of one long segment as: N = floor(D/7)+1
parts, words distributed into N groups of floor(wordCount/N) each with the
final group absorbing the remainder, part k spanning
[start + k·D/N, start + (k+1)·D/N), each part inheriting the confidence.
The following two definitions transcribe that description; the theorems
below compare them with the code's splitLongSegment. -/

/-- The k-th of the n word groups: floor(wordCount/n) words each, the
final group absorbing any remainder. -/
def specGroup (ws : List (List Char)) (n wpp i : Nat) : List (List Char) :=
  if i < n - 1 then (ws.drop (i * wpp)).take wpp else ws.drop (i * wpp)

/-- The split as the spec words it, for a segment of duration D:
N = floor(D/7)+1 parts, part k spanning
[start + k·D/N, start + (k+1)·D/N), texts the space-joined word groups,
confidence inherited. -/
def splitSpec (seg : Segment) : List Segment :=
  let ws := pySplit seg.text
  let d := seg.stop - seg.start
  let n := (pyTrunc (d / 7) + 1).toNat
  let wpp := ws.length / n
  (List.range n).map (fun (i : Nat) =>
    { start := seg.start + (i : ℚ) * (d / (n : ℚ))
      stop := seg.start + ((i : ℚ) + 1) * (d / (n : ℚ))
      text := joinSpace (specGroup ws n wpp i)
      confidence := seg.confidence })

/-! ## Concrete inputs used by witnesses and counterexamples -/

/-- Concrete input for the C1 witness. -/
def c1demoSeg : Segment :=
  { start := 0, stop := 2, text := ['h', 'i'], confidence := 1 }

/-- A segment of duration 2 whose 160-character two-word text forces a
minimum duration of 8 seconds: the adjusted duration exceeds 7.0 even
though the original duration does not. -/
def c3cexSeg : Segment :=
  { start := 0, stop := 2,
    text := List.replicate 80 'a' ++ ' ' :: List.replicate 79 'b',
    confidence := 1 }

/-- A two-word segment of duration 8, needing no minimum-duration
adjustment, that the normalizer splits. -/
def c3demoSeg : Segment :=
  { start := 0, stop := 8, text := ['a', 'a', ' ', 'b', 'b'],
    confidence := 1 }

/-- A split segment whose text has a double interior space. -/
def c4cexSeg : Segment :=
  { start := 0, stop := 8, text := ['a', ' ', ' ', 'b'], confidence := 1 }

/-- A single-spaced two-word segment of duration 8. -/
def c4demoSeg : Segment :=
  { start := 0, stop := 8, text := ['a', 'a', ' ', 'b', 'b'],
    confidence := 1 }

/-- The hallucination-drop condition exactly as the claim words it, on
the raw text: length at most 2 and not alphanumeric, or length above 20
with all non-space characters identical. -/
def claimHallucinationDrop (t : List Char) : Prop :=
  (t.length ≤ 2 ∧ ¬ (t ≠ [] ∧ ∀ c ∈ t, c.isAlphanum = true)) ∨
  (20 < t.length ∧ ∃ c ∈ t, c ≠ ' ' ∧ ∀ d ∈ t, d ≠ ' ' → d = c)

/-- The drop condition the code actually implements, in the claim's
vocabulary: on the stripped, lowercased text, length exactly 2 and not
alphanumeric, or length above 20 with all non-space characters
identical.  (The early return for stripped length below 2 makes the
first disjunct an equality rather than the claimed inequality.) -/
def codeHallucinationDrop (t : List Char) : Prop :=
  ((pyLower (pyStrip t)).length = 2 ∧
    ¬ (pyLower (pyStrip t) ≠ [] ∧
      ∀ c ∈ pyLower (pyStrip t), c.isAlphanum = true)) ∨
  (20 < (pyLower (pyStrip t)).length ∧
    ∃ c ∈ pyLower (pyStrip t), c ≠ ' ' ∧
      ∀ d ∈ pyLower (pyStrip t), d ≠ ' ' → d = c)

/-- A raw segment with neither log-probability nor confidence and an
inverted (equal) timestamp pair. -/
def c6demoRaw : RawSegment :=
  { start := 0, stop := 0, text := ['h', 'i'], avgLogprob := none,
    confidence := none }

/-- The segment the converter produces from c6demoRaw: default
confidence 0.8 and end repaired to start + max(1, 1/2.5) = 1. -/
def c6demoSeg : Segment :=
  { start := 0, stop := 1, text := ['h', 'i'], confidence := 8 / 10 }

/-- A one-segment input for the reassembler witness. -/
def c2demoSegs : List Segment :=
  [{ start := 0, stop := 1, text := ['h', 'i'], confidence := 1 }]

/-- An engine response supplying batch-local index 0. -/
def c2demoResp : Nat → List Char :=
  fun _ => ['[', '0', ']', ' ', 'h', 'o', 'l', 'a']

/-- An empty transcription result for the orchestrator witness. -/
def c8demoTr : TranscriptionResult :=
  { text := [], segments := [], detectedLanguage := ['e', 'n'],
    confidence := 0 }

/-- A job record ready for background processing. -/
def c8demoJob : Job :=
  { status := JobStatus.uploaded, progress := 0, error := none,
    videoData := some [1], transcriptionResult := none,
    resultVideo := none, sourceLanguage := ['e', 'n'],
    targetLanguage := ['e', 's'] }

/-- A one-job registry for the orchestrator witness. -/
def c8demoJobs : JobMap := [(['j'], c8demoJob)]

/-- A completed job holding rendered bytes. -/
def c9demoJob : Job :=
  { status := JobStatus.completed, progress := 100, error := none,
    videoData := none, transcriptionResult := none,
    resultVideo := some [7], sourceLanguage := ['e', 'n'],
    targetLanguage := ['e', 's'] }

/-- A one-job registry holding the completed job. -/
def c9demoJobs : JobMap := [(['d'], c9demoJob)]

/-- Two disjoint segments stored out of order; the caller's list reads
them as indices 0 and 1. -/
def c10storeA : Store :=
  [{ start := 10, stop := 12, text := ['b', ' ', 'c'], confidence := 1 },
   { start := 0, stop := 2, text := ['a', ' ', 'b'], confidence := 1 }]

/-- Two overlapping segments in order. -/
def c10storeB : Store :=
  [{ start := 0, stop := 5, text := ['a', ' ', 'b'], confidence := 1 },
   { start := 3, stop := 6, text := ['c', ' ', 'd'], confidence := 1 }]

/-- The store after normalizing c10storeB: the second object's start has
been overwritten in place to 5.1 by the overlap repair. -/
def c10storeB2 : Store :=
  [{ start := 0, stop := 5, text := ['a', ' ', 'b'], confidence := 1 },
   { start := 51 / 10, stop := 6, text := ['c', ' ', 'd'], confidence := 1 }]

/-! ## Lemmas: stable sort membership -/

theorem mem_pySortInsert {le : α → α → Bool} {x a : α} {l : List α} :
    a ∈ pySortInsert le x l ↔ a = x ∨ a ∈ l := by
  induction l with
  | nil => simp [pySortInsert]
  | cons t ts ih =>
    by_cases h : le x t
    · simp [pySortInsert, h]
    · simp only [pySortInsert, h, Bool.false_eq_true, if_false,
        List.mem_cons, ih]
      tauto

theorem mem_pySort {le : α → α → Bool} {a : α} {l : List α} :
    a ∈ pySort le l ↔ a ∈ l := by
  induction l with
  | nil => simp [pySort]
  | cons x xs ih =>
    simp only [pySort, List.foldr_cons, mem_pySortInsert, List.mem_cons]
    rw [show xs.foldr (pySortInsert le) [] = pySort le xs from rfl, ih]

/-! ## Lemmas: positive duration after the per-segment pass -/

theorem splitGoL_mem {ws : List (List Char)} {n wpp : Nat} {conf pd : ℚ} :
    ∀ (is : List Nat) (cur : ℚ) (p : Segment),
      p ∈ splitGoL ws n wpp conf pd is cur →
      p.stop = p.start + pd ∧ p.confidence = conf := by
  intro is
  induction is with
  | nil => intro cur p hp; simp [splitGoL] at hp
  | cons i is ih =>
    intro cur p hp
    by_cases hbr : ws.length ≤ i * wpp
    · simp [splitGoL, hbr] at hp
    · simp only [splitGoL, hbr, if_false, List.mem_cons] at hp
      rcases hp with rfl | hp
      · exact ⟨rfl, rfl⟩
      · exact ih _ p hp

theorem minAdjust_pos (seg : Segment) :
    0 < (minAdjust seg).stop - (minAdjust seg).start := by
  unfold minAdjust
  by_cases h : seg.stop - seg.start < max 1 ((seg.text.length : ℚ) * (1 / 20))
  · simp only [h, if_true]
    have h1 : (1 : ℚ) ≤ max 1 ((seg.text.length : ℚ) * (1 / 20)) :=
      le_max_left _ _
    linarith
  · simp only [h, if_false]
    have h1 : (1 : ℚ) ≤ max 1 ((seg.text.length : ℚ) * (1 / 20)) :=
      le_max_left _ _
    push_neg at h
    linarith

theorem splitLongSegment_numParts_pos (seg : Segment)
    (h : 0 < seg.stop - seg.start) :
    0 < ((pyTrunc ((seg.stop - seg.start) / 7) + 1).toNat : ℚ) := by
  have hq : (0 : ℚ) ≤ (seg.stop - seg.start) / 7 := by positivity
  have h1 : 0 ≤ pyTrunc ((seg.stop - seg.start) / 7) := by
    unfold pyTrunc
    simp only [hq, if_true]
    exact Int.floor_nonneg.mpr hq
  have h2 : 1 ≤ (pyTrunc ((seg.stop - seg.start) / 7) + 1).toNat := by omega
  exact_mod_cast Nat.lt_of_lt_of_le Nat.zero_lt_one h2

theorem splitLongSegment_pos (seg : Segment)
    (h : 0 < seg.stop - seg.start) :
    ∀ p ∈ splitLongSegment seg 7, p.start < p.stop := by
  intro p hp
  unfold splitLongSegment at hp
  by_cases hw : (pySplit seg.text).length ≤ 1
  · simp only [hw, if_true, List.mem_singleton] at hp
    subst hp
    linarith
  · simp only [hw, if_false] at hp
    obtain ⟨hstop, -⟩ := splitGoL_mem _ _ _ hp
    have hn := splitLongSegment_numParts_pos seg h
    have hpd : 0 < (seg.stop - seg.start) /
        (((pyTrunc ((seg.stop - seg.start) / 7) + 1).toNat : ℚ)) :=
      div_pos h hn
    rw [hstop]
    linarith

theorem processSegment_pos (seg : Segment) :
    ∀ p ∈ processSegment seg, p.start < p.stop := by
  intro p hp
  unfold processSegment at hp
  by_cases he : pyStrip seg.text = []
  · simp [he] at hp
  · simp only [he, if_false] at hp
    by_cases hd : 7 < seg.stop - seg.start
    · simp only [hd, if_true] at hp
      exact splitLongSegment_pos _ (minAdjust_pos seg) p hp
    · simp only [hd, if_false, List.mem_singleton] at hp
      subst hp
      have := minAdjust_pos seg
      linarith

/-! ## Lemmas: the overlap-removal pass -/

theorem removeOverlapsGo_spec :
    ∀ (rest : List Segment) (last : Segment),
      (∀ s ∈ rest, s.start < s.stop) →
      (∀ p ∈ removeOverlapsGo last rest, p.start < p.stop) ∧
      List.Chain' (fun a b => a.stop ≤ b.start)
        (last :: removeOverlapsGo last rest) := by
  intro rest
  induction rest with
  | nil =>
    intro last _
    simp [removeOverlapsGo]
  | cons s rest ih =>
    intro last hall
    have hs : s.start < s.stop := hall s (List.mem_cons_self s rest)
    have hrest : ∀ t ∈ rest, t.start < t.stop := fun t ht =>
      hall t (List.mem_cons_of_mem s ht)
    simp only [removeOverlapsGo]
    set s1 : Segment :=
      (if s.start < last.stop then
        let s2 := { s with start := last.stop + 1 / 10 }
        if s2.stop ≤ s2.start then { s2 with stop := s2.start + 1 } else s2
      else s) with hs1
    have key : last.stop ≤ s1.start ∧ s1.start < s1.stop := by
      rw [hs1]
      by_cases hov : s.start < last.stop
      · simp only [hov, if_true]
        by_cases hneg : s.stop ≤ last.stop + 1 / 10
        · simp only [hneg, if_true]
          constructor
          · show last.stop ≤ last.stop + 1 / 10
            linarith
          · show last.stop + 1 / 10 < last.stop + 1 / 10 + 1
            linarith
        · simp only [hneg, if_false]
          constructor
          · show last.stop ≤ last.stop + 1 / 10
            linarith
          · show last.stop + 1 / 10 < s.stop
            push_neg at hneg
            linarith
      · simp only [hov, if_false]
        push_neg at hov
        exact ⟨hov, hs⟩
    obtain ⟨ihpos, ihchain⟩ := ih s1 hrest
    refine ⟨?_, ?_⟩
    · intro p hp
      rcases List.mem_cons.mp hp with rfl | hp
      · exact key.2
      · exact ihpos p hp
    · exact List.chain'_cons.mpr ⟨key.1, ihchain⟩

theorem removeOverlaps_spec (segs : List Segment)
    (h : ∀ s ∈ segs, s.start < s.stop) :
    (∀ p ∈ removeOverlaps segs, p.start < p.stop) ∧
    List.Chain' (fun a b => a.stop ≤ b.start) (removeOverlaps segs) := by
  cases hs : pySort (fun a b => decide (a.start ≤ b.start)) segs with
  | nil =>
    unfold removeOverlaps
    rw [hs]
    simp
  | cons s rest =>
    unfold removeOverlaps
    rw [hs]
    have hsorted : ∀ t ∈ s :: rest, t.start < t.stop := by
      intro t ht
      rw [← hs] at ht
      exact h t (mem_pySort.mp ht)
    have hrest : ∀ t ∈ rest, t.start < t.stop := fun t ht =>
      hsorted t (List.mem_cons_of_mem s ht)
    obtain ⟨hpos, hchain⟩ := removeOverlapsGo_spec rest s hrest
    refine ⟨?_, hchain⟩
    intro p hp
    rcases List.mem_cons.mp hp with rfl | hp
    · exact hsorted _ (List.mem_cons_self _ _)
    · exact hpos p hp

/-- C1: every list produced by subtitle normalization
(_optimize_segments_for_subtitles) has end > start for each segment, and
each segment's start is at least the previous segment's end, so the
output is sorted by start and pairwise non-overlapping. -/
theorem optimize_segments_invariant (segs : List Segment) :
    (∀ p ∈ optimizeSegmentsForSubtitles segs, p.start < p.stop) ∧
    List.Chain' (fun a b => a.stop ≤ b.start)
      (optimizeSegmentsForSubtitles segs) := by
  apply removeOverlaps_spec
  intro s hs
  rw [List.mem_flatten] at hs
  obtain ⟨l, hl, hsl⟩ := hs
  rw [List.mem_map] at hl
  obtain ⟨seg, -, rfl⟩ := hl
  exact processSegment_pos seg s hsl

theorem optimize_segments_invariant_witness :
    c1demoSeg ∈ optimizeSegmentsForSubtitles [c1demoSeg] ∧
    c1demoSeg.start < c1demoSeg.stop := by
  have hstrip : pyStrip (['h', 'i']) = ['h', 'i'] := by decide
  have hmem : c1demoSeg ∈ optimizeSegmentsForSubtitles [c1demoSeg] := by
    norm_num [optimizeSegmentsForSubtitles, processSegment, minAdjust,
      removeOverlaps, pySort, pySortInsert, removeOverlapsGo, hstrip,
      c1demoSeg, List.cons_ne_nil]
  exact ⟨hmem, (optimize_segments_invariant [c1demoSeg]).1 c1demoSeg hmem⟩

/-! ## Lemmas: words of a split, and splitting a join -/

theorem pyStrip_eq_nil_iff (s : List Char) :
    pyStrip s = [] ↔ ∀ c ∈ s, pyIsSpace c = true := by
  unfold pyStrip
  rw [List.reverse_eq_nil_iff, List.dropWhile_eq_nil_iff]
  simp only [List.mem_reverse]
  constructor
  · intro h c hc
    rw [← List.takeWhile_append_dropWhile (p := pyIsSpace) (l := s)] at hc
    rcases List.mem_append.mp hc with h1 | h1
    · exact List.mem_takeWhile_imp h1
    · exact h c h1
  · intro h c hc
    exact h c (List.Sublist.mem hc (List.dropWhile_sublist pyIsSpace))

/-- Folding the split step over a word of non-whitespace characters onto
an in-progress group list prepends the word to the head group. -/
theorem foldr_pySplitStep_word_cons (w : List Char)
    (hw : ∀ c ∈ w, pyIsSpace c = false) (g : List Char)
    (rest : List (List Char)) :
    w.foldr pySplitStep (g :: rest) = (w ++ g) :: rest := by
  induction w with
  | nil => rfl
  | cons c w ih =>
    have hc : pyIsSpace c = false := hw c (List.mem_cons_self _ _)
    have hw2 : ∀ d ∈ w, pyIsSpace d = false := fun d hd =>
      hw d (List.mem_cons_of_mem _ hd)
    rw [List.foldr_cons, ih hw2]
    simp [pySplitStep, hc]

/-- Folding the split step over a nonempty word of non-whitespace
characters starting from the empty group list yields that single word. -/
theorem foldr_pySplitStep_word_nil (w : List Char) (hne : w ≠ [])
    (hw : ∀ c ∈ w, pyIsSpace c = false) :
    w.foldr pySplitStep [] = [w] := by
  induction w with
  | nil => exact absurd rfl hne
  | cons c w ih =>
    have hc : pyIsSpace c = false := hw c (List.mem_cons_self _ _)
    have hw2 : ∀ d ∈ w, pyIsSpace d = false := fun d hd =>
      hw d (List.mem_cons_of_mem _ hd)
    cases w with
    | nil => simp [pySplitStep, hc]
    | cons d w2 =>
      rw [List.foldr_cons, ih (List.cons_ne_nil d w2) hw2]
      simp [pySplitStep, hc]

/-- Folding the split step over a space-joined list of good words
recovers exactly those words. -/
theorem foldr_pySplitStep_joinSpace (ws : List (List Char))
    (h : ∀ w ∈ ws, w ≠ [] ∧ ∀ c ∈ w, pyIsSpace c = false) :
    (joinSpace ws).foldr pySplitStep [] = ws := by
  induction ws with
  | nil => rfl
  | cons w ws ih =>
    obtain ⟨hne, hword⟩ := h w (List.mem_cons_self _ _)
    have h2 : ∀ v ∈ ws, v ≠ [] ∧ ∀ c ∈ v, pyIsSpace c = false := fun v hv =>
      h v (List.mem_cons_of_mem _ hv)
    cases ws with
    | nil => exact foldr_pySplitStep_word_nil w hne hword
    | cons w2 ws2 =>
      have hjoin : joinSpace (w :: w2 :: ws2) =
          w ++ ' ' :: joinSpace (w2 :: ws2) := rfl
      rw [hjoin, List.foldr_append, List.foldr_cons, ih h2]
      have hsp : pyIsSpace ' ' = true := by decide
      have hw2ne : w2 ≠ [] := (h2 w2 (List.mem_cons_self _ _)).1
      have hstep : pySplitStep ' ' (w2 :: ws2) = [] :: w2 :: ws2 := by
        simp [pySplitStep, hsp, hw2ne]
      rw [hstep, foldr_pySplitStep_word_cons w hword, List.append_nil]

/-- Splitting a space-join of nonempty whitespace-free words gives back
exactly those words. -/
theorem pySplit_joinSpace (ws : List (List Char))
    (h : ∀ w ∈ ws, w ≠ [] ∧ ∀ c ∈ w, pyIsSpace c = false) :
    pySplit (joinSpace ws) = ws := by
  unfold pySplit
  rw [foldr_pySplitStep_joinSpace ws h]
  cases ws with
  | nil => rfl
  | cons w ws =>
    cases hw : w with
    | nil => exact absurd hw (h w (List.mem_cons_self _ _)).1
    | cons c cs => rfl

/-- Every word produced by pySplit is nonempty and whitespace-free. -/
theorem pySplit_good (s : List Char) :
    ∀ w ∈ pySplit s, w ≠ [] ∧ ∀ c ∈ w, pyIsSpace c = false := by
  have main : (∀ g ∈ s.foldr pySplitStep [], ∀ c ∈ g, pyIsSpace c = false) ∧
      (∀ g ∈ (s.foldr pySplitStep []).tail, g ≠ []) := by
    induction s with
    | nil => simp
    | cons c s ih =>
      rw [List.foldr_cons]
      obtain ⟨ih1, ih2⟩ := ih
      by_cases hc : pyIsSpace c = true
      · cases hgs : s.foldr pySplitStep [] with
        | nil => simp [pySplitStep, hc]
        | cons g rest =>
          rw [hgs] at ih1 ih2
          by_cases hg : g = []
          · simp only [pySplitStep, hc, if_true, hg]
            constructor
            · intro g2 hg2
              exact ih1 g2 (hg ▸ hg2)
            · intro g2 hg2
              exact ih2 g2 (hg ▸ hg2)
          · simp only [pySplitStep, hc, if_true, hg, if_false]
            constructor
            · intro g2 hg2
              rcases List.mem_cons.mp hg2 with rfl | hg2
              · intro x hx
                simp at hx
              · exact ih1 g2 hg2
            · intro g2 hg2
              simp only [List.tail_cons] at hg2
              rcases List.mem_cons.mp hg2 with rfl | hg2
              · exact hg
              · exact ih2 g2 hg2
      · have hc2 : pyIsSpace c = false := by
          cases h2 : pyIsSpace c
          · rfl
          · exact absurd h2 hc
        cases hgs : s.foldr pySplitStep [] with
        | nil =>
          simp only [pySplitStep, hc2, Bool.false_eq_true, if_false]
          constructor
          · intro g2 hg2
            rcases List.mem_singleton.mp hg2 with rfl
            intro x hx
            rcases List.mem_singleton.mp hx with rfl
            exact hc2
          · intro g2 hg2
            simp at hg2
        | cons g rest =>
          rw [hgs] at ih1 ih2
          simp only [pySplitStep, hc2, Bool.false_eq_true, if_false]
          constructor
          · intro g2 hg2
            rcases List.mem_cons.mp hg2 with rfl | hg2
            · intro x hx
              rcases List.mem_cons.mp hx with rfl | hx
              · exact hc2
              · exact ih1 g (List.mem_cons_self _ _) x hx
            · exact ih1 g2 (List.mem_cons_of_mem _ hg2)
          · intro g2 hg2
            simp only [List.tail_cons] at hg2
            exact ih2 g2 hg2
  intro w hw
  unfold pySplit at hw
  obtain ⟨main1, main2⟩ := main
  cases hgs : s.foldr pySplitStep [] with
  | nil =>
    rw [hgs] at hw
    simp at hw
  | cons g rest =>
    rw [hgs] at hw main1 main2
    cases g with
    | nil =>
      have hw2 : w ∈ rest := hw
      exact ⟨main2 w hw2, main1 w (List.mem_cons_of_mem _ hw2)⟩
    | cons c cs =>
      have hw2 : w ∈ (c :: cs) :: rest := hw
      refine ⟨?_, main1 w hw2⟩
      rcases List.mem_cons.mp hw2 with heq | hmem
      · rw [heq]
        exact List.cons_ne_nil c cs
      · exact main2 w hmem

/-! ## Lemmas: the split loop versus the spec's description -/

theorem mul_div_lt {i n L : Nat} (hL : 0 < L) (hi : i < n) :
    i * (L / n) < L := by
  rcases Nat.eq_zero_or_pos (L / n) with h0 | hpos
  · rw [h0, Nat.mul_zero]
    exact hL
  · have h1 : L / n * n ≤ L := Nat.div_mul_le_self L n
    have h2 : i * (L / n) ≤ (n - 1) * (L / n) :=
      Nat.mul_le_mul_right _ (by omega)
    have h3 : (n - 1) * (L / n) + (L / n) = n * (L / n) := by
      cases n with
      | zero => omega
      | succ m => simp [Nat.succ_sub_one, Nat.succ_mul]
    have h4 : n * (L / n) = L / n * n := Nat.mul_comm _ _
    omega

theorem splitGoL_range_eq (ws : List (List Char)) (n wpp : Nat)
    (conf pd s0 : ℚ) (hlen : 0 < ws.length) (hwpp : wpp = ws.length / n) :
    ∀ (m i : Nat) (cur : ℚ), i + m = n → cur = s0 + (i : ℚ) * pd →
      splitGoL ws n wpp conf pd (List.range' i m) cur =
        (List.range' i m).map (fun k =>
          { start := s0 + (k : ℚ) * pd
            stop := s0 + ((k : ℚ) + 1) * pd
            text := joinSpace (specGroup ws n wpp k)
            confidence := conf }) := by
  intro m
  induction m with
  | zero =>
    intro i cur hi hcur
    simp [splitGoL]
  | succ m ih =>
    intro i cur hi hcur
    rw [List.range'_succ]
    have hin : i < n := by omega
    have hbreak : ¬ ws.length ≤ i * wpp := by
      rw [hwpp]
      exact Nat.not_le.mpr (mul_div_lt hlen hin)
    simp only [splitGoL, if_neg hbreak, List.map_cons]
    have htext : joinSpace
        ((ws.drop (i * wpp)).take
          ((if i < n - 1 then (i + 1) * wpp else ws.length) - i * wpp)) =
        joinSpace (specGroup ws n wpp i) := by
      by_cases hlt : i < n - 1
      · have harith : (i + 1) * wpp - i * wpp = wpp := by
          rw [Nat.succ_mul]
          omega
        simp only [hlt, if_true, specGroup, harith]
      · simp only [hlt, if_false, specGroup]
        congr 1
        apply List.take_of_length_le
        rw [List.length_drop]
    have hhead : Segment.mk cur (cur + pd)
        (joinSpace ((ws.drop (i * wpp)).take
          ((if i < n - 1 then (i + 1) * wpp else ws.length) - i * wpp))) conf =
        Segment.mk (s0 + (i : ℚ) * pd) (s0 + ((i : ℚ) + 1) * pd)
          (joinSpace (specGroup ws n wpp i)) conf := by
      simp only [Segment.mk.injEq]
      exact ⟨by rw [hcur], by rw [hcur]; ring, htext, trivial⟩
    have hcur2 : cur + pd = s0 + ((i + 1 : Nat) : ℚ) * pd := by
      rw [hcur]
      push_cast
      ring
    rw [hhead, ih (i + 1) (cur + pd) (by omega) hcur2]

theorem splitLongSegment_eq_splitSpec (seg : Segment)
    (h : 1 < (pySplit seg.text).length) :
    splitLongSegment seg 7 = splitSpec seg := by
  have hne : ¬ (pySplit seg.text).length ≤ 1 := Nat.not_le.mpr h
  simp only [splitLongSegment, splitSpec, if_neg hne]
  rw [List.range_eq_range']
  exact splitGoL_range_eq (pySplit seg.text) _ _ seg.confidence _ seg.start
    (by omega) rfl _ 0 seg.start (by omega) (by push_cast; ring)

theorem specGroup_flatten (n : Nat) (hn : 0 < n) :
    ∀ (ws : List (List Char)) (wpp : Nat),
      ((List.range n).map (fun i => specGroup ws n wpp i)).flatten = ws := by
  induction n with
  | zero => omega
  | succ m ih =>
    intro ws wpp
    rcases Nat.eq_zero_or_pos m with rfl | hm
    · simp [specGroup, List.range_succ]
    · rw [List.range_succ_eq_map, List.map_cons, List.map_map,
        List.flatten_cons]
      have hzero : specGroup ws (m + 1) wpp 0 = ws.take wpp := by
        simp only [specGroup, Nat.zero_mul, List.drop_zero]
        rw [if_pos (by omega)]
      have hsucc : ∀ i : Nat,
          specGroup ws (m + 1) wpp (i + 1) = specGroup (ws.drop wpp) m wpp i := by
        intro i
        simp only [specGroup]
        have harith : (i + 1) * wpp = i * wpp + wpp := by
          rw [Nat.succ_mul]
        by_cases hlt : i < m - 1
        · rw [if_pos (by omega), if_pos hlt, harith, Nat.add_comm,
            ← List.drop_drop]
        · rw [if_neg (by omega), if_neg hlt, harith, Nat.add_comm,
            ← List.drop_drop]
      have hmap : (List.range m).map
            ((fun i => specGroup ws (m + 1) wpp i) ∘ Nat.succ) =
          (List.range m).map (fun i => specGroup (ws.drop wpp) m wpp i) := by
        apply List.map_congr_left
        intro i _
        exact hsucc i
      rw [hzero, hmap, ih hm (ws.drop wpp) wpp, List.take_append_drop]

theorem sum_map_const_range (n : Nat) (c : ℚ) :
    ((List.range n).map (fun _ => c)).sum = n * c := by
  induction n with
  | zero => simp
  | succ m ih =>
    rw [List.range_succ, List.map_append, List.sum_append, ih]
    push_cast
    simp
    ring

theorem minAdjust_text (seg : Segment) : (minAdjust seg).text = seg.text := by
  unfold minAdjust
  by_cases h : seg.stop - seg.start < max 1 ((seg.text.length : ℚ) * (1 / 20))
  · rw [if_pos h]
  · rw [if_neg h]

/-- C3 (amended): the normalizer applies empty-drop, minimum duration,
maximum duration and overlap removal in order, but the 7.0-second test is
made against the duration computed before the minimum-duration
adjustment.  Every segment whose original duration exceeds 7.0 and whose
text has more than one word is split exactly as the spec describes —
N = floor(D/7)+1 parts of span D/N with words in N groups of
floor(wordCount/N), the final group absorbing the remainder, confidence
inherited — where D is the segment's duration after the adjustment; a
one-word segment is kept unsplit. -/
theorem process_segment_split_spec (seg : Segment)
    (hne : pyStrip seg.text ≠ []) (hd : 7 < seg.stop - seg.start) :
    (1 < (pySplit seg.text).length →
      processSegment seg = splitSpec (minAdjust seg)) ∧
    ((pySplit seg.text).length ≤ 1 →
      processSegment seg = [minAdjust seg]) := by
  simp only [processSegment, if_neg hne, if_pos hd]
  constructor
  · intro h
    apply splitLongSegment_eq_splitSpec
    rw [minAdjust_text]
    exact h
  · intro h
    simp only [splitLongSegment, minAdjust_text]
    rw [if_pos h]

theorem process_segment_split_spec_witness :
    processSegment c3demoSeg = splitSpec (minAdjust c3demoSeg) :=
  (process_segment_split_spec c3demoSeg (by decide)
    (by norm_num [c3demoSeg])).1 (by decide)

/-- C3 counterexample: a two-word segment of original duration 2 whose
160-character text pushes the adjusted duration to 8 seconds.  After the
minimum-duration adjustment its duration exceeds 7.0 and it has more than
one word, and the claimed part count would be N = floor(8/7)+1 = 2, yet
the normalizer's per-segment pass leaves it as one unsplit segment,
because the code compares the pre-adjustment duration with 7.0. -/
theorem process_segment_counterexample :
    7 < (minAdjust c3cexSeg).stop - (minAdjust c3cexSeg).start ∧
    1 < (pySplit (minAdjust c3cexSeg).text).length ∧
    (pyTrunc (((minAdjust c3cexSeg).stop - (minAdjust c3cexSeg).start) / 7)
      + 1).toNat = 2 ∧
    processSegment c3cexSeg = [minAdjust c3cexSeg] := by
  have hgood : ∀ w ∈ [List.replicate 80 'a', List.replicate 79 'b'],
      w ≠ [] ∧ ∀ c ∈ w, pyIsSpace c = false := by
    intro w hw
    simp only [List.mem_cons, List.not_mem_nil, or_false] at hw
    rcases hw with rfl | rfl
    · exact ⟨by decide, by decide⟩
    · exact ⟨by decide, by decide⟩
  have htext : c3cexSeg.text =
      joinSpace [List.replicate 80 'a', List.replicate 79 'b'] := rfl
  have hsplit : pySplit c3cexSeg.text =
      [List.replicate 80 'a', List.replicate 79 'b'] := by
    rw [htext]
    exact pySplit_joinSpace _ hgood
  have hminA : minAdjust c3cexSeg =
      { start := 0, stop := 8, text := c3cexSeg.text, confidence := 1 } := by
    norm_num [minAdjust, c3cexSeg, Segment.mk.injEq]
  have hstrip : pyStrip c3cexSeg.text ≠ [] := by
    intro hcon
    have hmem : 'a' ∈ c3cexSeg.text := by
      show 'a' ∈ List.replicate 80 'a' ++ ' ' :: List.replicate 79 'b'
      exact List.mem_append_left _ (List.mem_replicate.mpr ⟨by omega, rfl⟩)
    exact absurd ((pyStrip_eq_nil_iff _).mp hcon 'a' hmem) (by decide)
  refine ⟨?_, ?_, ?_, ?_⟩
  · rw [hminA]
    norm_num
  · rw [minAdjust_text, hsplit]
    norm_num
  · rw [hminA]
    norm_num [pyTrunc]
    decide
  · simp only [processSegment, if_neg hstrip]
    rw [if_neg (show ¬ (7:ℚ) < c3cexSeg.stop - c3cexSeg.start from
      by norm_num [c3cexSeg])]

/-- C4 (amended): for every segment the normalizer splits (more than one
word, duration above 7.0), the parts' durations sum exactly to the
segment's duration, and the concatenation of the parts' word sequences is
exactly the original text's word sequence.  (The space-join of the parts'
texts reproduces the original text itself only when the original is
single-spaced; see the counterexample.) -/
theorem split_long_segment_sum_words (seg : Segment)
    (hw : 1 < (pySplit seg.text).length)
    (hd : 7 < seg.stop - seg.start) :
    ((splitLongSegment seg 7).map (fun p => p.stop - p.start)).sum
      = seg.stop - seg.start ∧
    ((splitLongSegment seg 7).map (fun p => pySplit p.text)).flatten
      = pySplit seg.text := by
  rw [splitLongSegment_eq_splitSpec seg hw]
  simp only [splitSpec]
  have hnpos : 0 < (pyTrunc ((seg.stop - seg.start) / 7) + 1).toNat := by
    have h0 : 0 ≤ pyTrunc ((seg.stop - seg.start) / 7) := by
      unfold pyTrunc
      rw [if_pos (by positivity)]
      exact Int.floor_nonneg.mpr (by positivity)
    omega
  have hncast : (0:ℚ) <
      ((pyTrunc ((seg.stop - seg.start) / 7) + 1).toNat : ℚ) := by
    exact_mod_cast hnpos
  constructor
  · rw [List.map_map]
    trans ((List.range ((pyTrunc ((seg.stop - seg.start) / 7) + 1).toNat)).map
      (fun _ => (seg.stop - seg.start) /
        (((pyTrunc ((seg.stop - seg.start) / 7) + 1).toNat : ℚ)))).sum
    · apply congrArg List.sum
      apply List.map_congr_left
      intro i hi
      show (seg.start + ((i:ℚ) + 1) * ((seg.stop - seg.start) /
          (((pyTrunc ((seg.stop - seg.start) / 7) + 1).toNat : ℚ)))) -
        (seg.start + (i:ℚ) * ((seg.stop - seg.start) /
          (((pyTrunc ((seg.stop - seg.start) / 7) + 1).toNat : ℚ)))) = _
      ring
    · rw [sum_map_const_range, mul_comm, div_mul_cancel₀]
      exact ne_of_gt hncast
  · rw [List.map_map]
    trans ((List.range ((pyTrunc ((seg.stop - seg.start) / 7) + 1).toNat)).map
      (fun i => specGroup (pySplit seg.text)
        ((pyTrunc ((seg.stop - seg.start) / 7) + 1).toNat)
        ((pySplit seg.text).length /
          ((pyTrunc ((seg.stop - seg.start) / 7) + 1).toNat)) i)).flatten
    · apply congrArg List.flatten
      apply List.map_congr_left
      intro i hi
      show pySplit (joinSpace (specGroup (pySplit seg.text) _ _ i)) = _
      refine pySplit_joinSpace _ ?_
      intro w hw2
      refine ⟨?_, ?_⟩ <;> ·
        first
        | exact (pySplit_good seg.text w (by
            by_cases hlt : i <
                (pyTrunc ((seg.stop - seg.start) / 7) + 1).toNat - 1
            · rw [specGroup, if_pos hlt] at hw2
              exact List.mem_of_mem_drop (List.mem_of_mem_take hw2)
            · rw [specGroup, if_neg hlt] at hw2
              exact List.mem_of_mem_drop hw2)).1
        | exact (pySplit_good seg.text w (by
            by_cases hlt : i <
                (pyTrunc ((seg.stop - seg.start) / 7) + 1).toNat - 1
            · rw [specGroup, if_pos hlt] at hw2
              exact List.mem_of_mem_drop (List.mem_of_mem_take hw2)
            · rw [specGroup, if_neg hlt] at hw2
              exact List.mem_of_mem_drop hw2)).2
    · exact specGroup_flatten _ hnpos _ _

theorem split_long_segment_sum_words_witness :
    ((splitLongSegment c4demoSeg 7).map (fun p => p.stop - p.start)).sum
      = c4demoSeg.stop - c4demoSeg.start ∧
    ((splitLongSegment c4demoSeg 7).map (fun p => pySplit p.text)).flatten
      = pySplit c4demoSeg.text :=
  split_long_segment_sum_words c4demoSeg (by decide)
    (by norm_num [c4demoSeg])

/-- C4 counterexample: the split of the two-word segment with text
'a  b' (double interior space) produces parts 'a' and 'b', whose
space-join 'a b' differs from the original text: word splitting
canonicalizes whitespace, so the exact-reconstruction clause fails. -/
theorem split_long_segment_join_counterexample :
    7 < c4cexSeg.stop - c4cexSeg.start ∧
    1 < (pySplit c4cexSeg.text).length ∧
    joinSpace ((splitLongSegment c4cexSeg 7).map Segment.text)
      ≠ c4cexSeg.text := by
  refine ⟨by norm_num [c4cexSeg], by decide, ?_⟩
  rw [splitLongSegment_eq_splitSpec c4cexSeg (by decide)]
  have hn : (pyTrunc ((c4cexSeg.stop - c4cexSeg.start) / 7) + 1).toNat = 2 := by
    norm_num [c4cexSeg, pyTrunc]
    decide
  have hws : pySplit c4cexSeg.text = [['a'], ['b']] := by decide
  simp only [splitSpec, hn, hws, List.map_map]
  simp [List.range_succ, specGroup, joinSpace, c4cexSeg]

/-! ## Lemmas: the hallucination filter -/

theorem pyIsAlnum_false_iff (s : List Char) :
    pyIsAlnum s = false ↔ ¬ (s ≠ [] ∧ ∀ c ∈ s, c.isAlphanum = true) := by
  rw [← Bool.not_eq_true]
  unfold pyIsAlnum
  simp [List.all_eq_true, List.isEmpty_iff]

theorem allNonSpaceSame_true_iff (s : List Char) :
    allNonSpaceSame s = true ↔
      ∃ c ∈ s, c ≠ ' ' ∧ ∀ d ∈ s, d ≠ ' ' → d = c := by
  unfold allNonSpaceSame
  cases hf : s.filter (fun c => c != ' ') with
  | nil =>
    simp only [Bool.false_eq_true, false_iff]
    rintro ⟨c, hcs, hcne, -⟩
    have : c ∈ s.filter (fun c => c != ' ') :=
      List.mem_filter.mpr ⟨hcs, by simpa using hcne⟩
    rw [hf] at this
    exact absurd this (List.not_mem_nil c)
  | cons c rest =>
    have hcf : c ∈ s.filter (fun c => c != ' ') := by
      rw [hf]
      exact List.mem_cons_self _ _
    obtain ⟨hcs, hcne⟩ := List.mem_filter.mp hcf
    have hcne2 : c ≠ ' ' := by simpa using hcne
    constructor
    · intro hall
      refine ⟨c, hcs, hcne2, ?_⟩
      intro d hds hdne
      have hdf : d ∈ s.filter (fun c => c != ' ') :=
        List.mem_filter.mpr ⟨hds, by simpa using hdne⟩
      rw [hf] at hdf
      rcases List.mem_cons.mp hdf with rfl | hdr
      · rfl
      · have := List.all_eq_true.mp hall d hdr
        simpa using this
    · rintro ⟨c0, hc0s, hc0ne, hall⟩
      have hcc0 : c = c0 := hall c hcs hcne2
      rw [List.all_eq_true]
      intro d hdr
      have hdf : d ∈ s.filter (fun c => c != ' ') := by
        rw [hf]
        exact List.mem_cons_of_mem _ hdr
      obtain ⟨hds, hdne⟩ := List.mem_filter.mp hdf
      have : d = c0 := hall d hds (by simpa using hdne)
      simp [this, hcc0]

/-- C5 (amended): a raw segment text is flagged by the hallucination
filter if and only if, on its stripped and lowercased form, the length is
exactly 2 and the text is not alphanumeric, or the length exceeds 20 and
all non-space characters are identical.  In particular a one-character
non-alphanumeric text is never flagged. -/
theorem is_likely_hallucination_iff (t : List Char) :
    isLikelyHallucination t = true ↔ codeHallucinationDrop t := by
  unfold isLikelyHallucination codeHallucinationDrop
  have hslen : (pyLower (pyStrip t)).length = (pyStrip t).length :=
    List.length_map _ _
  by_cases h2 : (pyStrip t).length < 2
  · rw [if_pos]
    · simp only [Bool.false_eq_true, false_iff]
      rintro (⟨hlen, -⟩ | ⟨hlen, -⟩) <;> omega
    · simp [h2]
  · have ht : ¬ t = [] := by
      intro h
      rw [h] at h2
      simp [pyStrip] at h2
    rw [if_neg]
    · simp only [Bool.or_eq_true, Bool.and_eq_true, decide_eq_true_eq,
        Bool.not_eq_eq_eq_not, Bool.not_true, pyIsAlnum_false_iff,
        allNonSpaceSame_true_iff]
      constructor
      · rintro (⟨hle, hnal⟩ | ⟨hgt, hsame⟩)
        · exact Or.inl ⟨by omega, hnal⟩
        · exact Or.inr ⟨hgt, hsame⟩
      · rintro (⟨heq, hnal⟩ | ⟨hgt, hsame⟩)
        · exact Or.inl ⟨by omega, hnal⟩
        · exact Or.inr ⟨hgt, hsame⟩
    · simp [ht, h2]

theorem is_likely_hallucination_iff_witness :
    isLikelyHallucination (List.replicate 25 'x') = true :=
  (is_likely_hallucination_iff (List.replicate 25 'x')).mpr
    (Or.inr ⟨by decide, 'x', by decide, by decide, by decide⟩)

/-- C5 counterexample: the one-character non-alphanumeric text consisting
of a single hash mark satisfies the claim's drop condition (length at
most 2 and not alphanumeric), yet the filter keeps it: texts whose
stripped length is below 2 are never dropped. -/
theorem hallucination_counterexample :
    claimHallucinationDrop ['#'] ∧ isLikelyHallucination ['#'] = false := by
  constructor
  · exact Or.inl ⟨by decide, by decide⟩
  · decide

/-! ## Lemmas: the segment converter -/

theorem clampConf_idem (q : ℚ) : clampConf (clampConf q) = clampConf q := by
  unfold clampConf
  have h1 : (1 / 10 : ℚ) ≤ max (1 / 10) (min 1 q) := le_max_left _ _
  have h2 : max (1 / 10 : ℚ) (min 1 q) ≤ 1 :=
    max_le (by norm_num) (min_le_left _ _)
  rw [min_eq_right h2, max_eq_right h1]

/-- C6: for every raw engine segment the filter keeps, the produced
confidence is clamp((logprob+3)/3, 0.1, 1.0) when a log-probability is
supplied, else a supplied confidence clamped to [0.1, 1.0], else 0.8; and
the produced end timestamp is repaired to
start + max(1.0, wordCount/2.5) exactly when end ≤ start.  The start
timestamp is passed through unchanged. -/
theorem convert_segment_spec (raw : RawSegment) (seg : Segment)
    (h : convertSegment raw = some seg) :
    seg.start = raw.start ∧
    seg.confidence =
      (match raw.avgLogprob with
        | some lp => clampConf ((lp + 3) / 3)
        | none =>
          match raw.confidence with
          | some c => clampConf c
          | none => 8 / 10) ∧
    seg.stop =
      (if raw.stop ≤ raw.start then
        raw.start +
          max 1 (((pySplit (pyStrip raw.text)).length : ℚ) / (5 / 2))
      else raw.stop) := by
  simp only [convertSegment] at h
  by_cases h1 : pyStrip raw.text = []
  · rw [if_pos h1] at h
    exact absurd h (by simp)
  · rw [if_neg h1] at h
    by_cases h2 : isLikelyHallucination (pyStrip raw.text) = true
    · rw [if_pos h2] at h
      exact absurd h (by simp)
    · rw [if_neg h2] at h
      have hseg := Option.some_inj.mp h
      subst hseg
      rcases hl : raw.avgLogprob with - | lp
      · rcases hc : raw.confidence with - | c
        · simp only [hl, hc]
          refine ⟨by trivial, ?_, by trivial⟩
          show clampConf (8 / 10) = 8 / 10
          unfold clampConf
          norm_num
        · simp only [hl, hc]
          exact ⟨by trivial, by trivial, by trivial⟩
      · simp only [hl]
        refine ⟨by trivial, ?_, by trivial⟩
        show clampConf (clampConf ((lp + 3) / 3)) = clampConf ((lp + 3) / 3)
        exact clampConf_idem _

theorem convert_segment_spec_witness :
    c6demoSeg.start = c6demoRaw.start ∧
    c6demoSeg.confidence =
      (match c6demoRaw.avgLogprob with
        | some lp => clampConf ((lp + 3) / 3)
        | none =>
          match c6demoRaw.confidence with
          | some c => clampConf c
          | none => 8 / 10) ∧
    c6demoSeg.stop =
      (if c6demoRaw.stop ≤ c6demoRaw.start then
        c6demoRaw.start +
          max 1 (((pySplit (pyStrip c6demoRaw.text)).length : ℚ) / (5 / 2))
      else c6demoRaw.stop) := by
  refine convert_segment_spec c6demoRaw c6demoSeg ?_
  have hstrip : pyStrip (['h', 'i']) = ['h', 'i'] := by decide
  have hh : isLikelyHallucination (['h', 'i']) = false := by decide
  have hsplit2 : pySplit (['h', 'i']) = [['h', 'i']] := by decide
  norm_num [convertSegment, c6demoRaw, c6demoSeg, hstrip, hh, hsplit2,
    clampConf, List.cons_ne_nil, Segment.mk.injEq]

/-! ## Lemmas: the batch translation reassembler -/

theorem getD_take (l : List Segment) (k j : Nat) (h : j < k) :
    (l.take k).getD j default = l.getD j default := by
  rw [List.getD_eq_getElem?_getD, List.getD_eq_getElem?_getD,
    List.getElem?_take, if_pos h]

theorem getD_drop (l : List Segment) (k j : Nat) :
    (l.drop k).getD j default = l.getD (k + j) default := by
  rw [List.getD_eq_getElem?_getD, List.getD_eq_getElem?_getD,
    List.getElem?_drop]

theorem getD_append_left (a b : List Segment) (j : Nat) (h : j < a.length) :
    (a ++ b).getD j default = a.getD j default := by
  rw [List.getD_eq_getElem?_getD, List.getD_eq_getElem?_getD,
    List.getElem?_append, if_pos h]

theorem getD_append_right (a b : List Segment) (j : Nat)
    (h : ¬ j < a.length) :
    (a ++ b).getD j default = b.getD (j - a.length) default := by
  rw [List.getD_eq_getElem?_getD, List.getD_eq_getElem?_getD,
    List.getElem?_append, if_neg h]

theorem parseGo_length (m : List (Int × List Char)) :
    ∀ (i : Nat) (os : List Segment), (parseGo m i os).length = os.length := by
  intro i os
  induction os generalizing i with
  | nil => rfl
  | cons o os ih =>
    simp only [parseGo, List.length_cons, ih]

theorem parseGo_getD (m : List (Int × List Char)) :
    ∀ (os : List Segment) (i j : Nat), j < os.length →
      (parseGo m i os).getD j default =
        { os.getD j default with
          text := (mapGet m ((i + j : Nat) : Int)).getD
            (os.getD j default).text } := by
  intro os
  induction os with
  | nil =>
    intro i j h
    simp at h
  | cons o os ih =>
    intro i j h
    cases j with
    | zero => simp [parseGo]
    | succ j2 =>
      have h2 : j2 < os.length := by
        simp only [List.length_cons] at h
        omega
      have harith : i + (j2 + 1) = (i + 1) + j2 := by omega
      simp only [parseGo, List.getD_cons_succ, harith]
      exact ih (i + 1) j2 h2

theorem translateLoop_spec :
    ∀ (fuel : Nat) (responses : Nat → List Char) (segs : List Segment),
      segs.length ≤ fuel →
      (translateLoop fuel responses segs).length = segs.length ∧
      ∀ j, j < segs.length →
        (translateLoop fuel responses segs).getD j default =
          { segs.getD j default with
            text := (mapGet
              (buildSegmentMap (splitLines (pyStrip (responses (j / 10)))))
              ((j % 10 : Nat) : Int)).getD (segs.getD j default).text } := by
  intro fuel
  induction fuel with
  | zero =>
    intro responses segs hle
    have hnil : segs = [] := List.length_eq_zero.mp (by omega)
    subst hnil
    exact ⟨rfl, by intro j hj; simp at hj⟩
  | succ fuel ih =>
    intro responses segs hle
    by_cases hnil : segs = []
    · subst hnil
      exact ⟨rfl, by intro j hj; simp at hj⟩
    · have hL : 0 < segs.length := List.length_pos.mpr hnil
      have hstep : translateLoop (fuel + 1) responses segs =
          parseBatchTranslation (responses 0) (segs.take 10) ++
            translateLoop fuel (fun k => responses (k + 1)) (segs.drop 10) := by
        rw [translateLoop, if_neg hnil]
      have hlen10 : (segs.take 10).length = min 10 segs.length :=
        List.length_take 10 segs
      have hplen : (parseBatchTranslation (responses 0) (segs.take 10)).length
          = min 10 segs.length := by
        rw [parseBatchTranslation, parseGo_length, hlen10]
      have hdlen : (segs.drop 10).length = segs.length - 10 :=
        List.length_drop 10 segs
      obtain ⟨ihlen, ihget⟩ :=
        ih (fun k => responses (k + 1)) (segs.drop 10) (by omega)
      constructor
      · rw [hstep, List.length_append, hplen, ihlen, hdlen]
        omega
      · intro j hj
        rw [hstep]
        by_cases hj10 : j < min 10 segs.length
        · rw [getD_append_left _ _ _ (by rw [hplen]; exact hj10)]
          have hj2 : j < (segs.take 10).length := by rw [hlen10]; exact hj10
          rw [parseBatchTranslation, parseGo_getD _ _ 0 j hj2]
          have hjj : j < 10 := by omega
          rw [getD_take _ _ _ hjj]
          have hdiv : j / 10 = 0 := Nat.div_eq_of_lt hjj
          have hmod : j % 10 = j := Nat.mod_eq_of_lt hjj
          rw [hdiv, hmod]
          simp
        · have hj10b : 10 ≤ j := by omega
          rw [getD_append_right _ _ _ (by rw [hplen]; exact hj10)]
          rw [hplen]
          have hmin : min 10 segs.length = 10 := by omega
          rw [hmin]
          have hj3 : j - 10 < (segs.drop 10).length := by omega
          rw [ihget (j - 10) hj3]
          have hd1 : (segs.drop 10).getD (j - 10) default =
              segs.getD j default := by
            rw [getD_drop]
            congr 1
            omega
          have hd2 : (j - 10) / 10 + 1 = j / 10 := by omega
          have hd3 : (j - 10) % 10 = j % 10 := by omega
          rw [hd1, hd2, hd3]

/-- C2: for every input list, language pair and family of engine
responses, translate_segments returns a list of exactly the input's
length whose j-th element keeps the j-th input segment's start, end and
confidence; and whenever translation actually runs (distinct language
codes), the j-th text is the translation the response for j's batch
supplies for its batch-local index j mod 10, or the original untranslated
text when no response line supplies that index.  No segment is ever
omitted. -/
theorem translate_segments_spec (segs : List Segment) (src tgt : List Char)
    (responses : Nat → List Char) :
    (translateSegments segs src tgt responses).length = segs.length ∧
    ∀ j, j < segs.length →
      ((translateSegments segs src tgt responses).getD j default).start
          = (segs.getD j default).start ∧
      ((translateSegments segs src tgt responses).getD j default).stop
          = (segs.getD j default).stop ∧
      ((translateSegments segs src tgt responses).getD j default).confidence
          = (segs.getD j default).confidence ∧
      (pyLower src ≠ pyLower tgt →
        ((translateSegments segs src tgt responses).getD j default).text =
          (mapGet
            (buildSegmentMap (splitLines (pyStrip (responses (j / 10)))))
            ((j % 10 : Nat) : Int)).getD ((segs.getD j default).text)) := by
  unfold translateSegments
  by_cases heq : pyLower src = pyLower tgt
  · rw [if_pos heq]
    exact ⟨rfl, fun j hj =>
      ⟨rfl, rfl, rfl, fun hne => absurd heq hne⟩⟩
  · rw [if_neg heq]
    obtain ⟨hlen, hget⟩ :=
      translateLoop_spec segs.length responses segs (le_refl _)
    refine ⟨hlen, fun j hj => ?_⟩
    rw [hget j hj]
    exact ⟨rfl, rfl, rfl, fun _ => rfl⟩

theorem translate_segments_spec_witness :
    (translateSegments c2demoSegs (['e', 'n']) (['e', 's'])
      c2demoResp).length = c2demoSegs.length ∧
    ((translateSegments c2demoSegs (['e', 'n']) (['e', 's'])
      c2demoResp).getD 0 default).text = ['h', 'o', 'l', 'a'] := by
  have h := translate_segments_spec c2demoSegs (['e', 'n']) (['e', 's'])
    c2demoResp
  refine ⟨h.1, ?_⟩
  have ht := (h.2 0 (by decide)).2.2.2 (by decide)
  rw [ht]
  decide

/-! ## Lemmas: the job registry and the orchestrator -/

theorem jLookup_jInsert (jobs : JobMap) (id : List Char) (j : Job) :
    jLookup (jInsert jobs id j) id = some j := by
  induction jobs with
  | nil => simp [jInsert, jLookup]
  | cons p rest ih =>
    obtain ⟨k, j2⟩ := p
    by_cases hk : k = id
    · simp [jInsert, jLookup, hk]
    · simp only [jInsert, hk, if_false, jLookup, ih]

theorem jLookup_jErase (jobs : JobMap) (id : List Char) :
    jLookup (jErase jobs id) id = none := by
  induction jobs with
  | nil => rfl
  | cons p rest ih =>
    obtain ⟨k, j⟩ := p
    by_cases hk : k = id
    · simp only [jErase, hk, if_true]
      exact ih
    · simp only [jErase, hk, if_false, jLookup, ih]

theorem failJob_spec (jobs : JobMap) (id : List Char) (msg : List Char)
    (j0 : Job) (h : jLookup jobs id = some j0) :
    jLookup (failJob jobs id msg) id =
      some { j0 with
        status := JobStatus.failed
        error := some msg
        progress := 0 } := by
  unfold failJob
  rw [h]
  exact jLookup_jInsert jobs id _

theorem finalTranscription_ok (j : Job) (edited : TranscriptionResult)
    (tr : Except (List Char) (List Segment))
    (hsrc : j.sourceLanguage = j.targetLanguage ∨
      ∃ ts, tr = Except.ok ts) :
    ∃ ftr, finalTranscription j edited tr = Except.ok ftr := by
  unfold finalTranscription
  by_cases hne : j.sourceLanguage ≠ j.targetLanguage
  · rcases hsrc with heq | ⟨ts, rfl⟩
    · exact absurd heq hne
    · exact ⟨_, by rw [if_pos hne]⟩
  · exact ⟨edited, by rw [if_neg hne]⟩

theorem finalTranscription_error (j : Job) (edited : TranscriptionResult)
    (e : List Char) (hne : j.sourceLanguage ≠ j.targetLanguage) :
    finalTranscription j edited (Except.error e) = Except.error e := by
  unfold finalTranscription
  rw [if_pos hne]

/-- C7: when the source and target language codes are equal,
translate_segments skips translation and returns its input unchanged. -/
theorem translate_segments_identity (segs : List Segment)
    (src tgt : List Char) (responses : Nat → List Char) (h : src = tgt) :
    translateSegments segs src tgt responses = segs := by
  subst h
  unfold translateSegments
  rw [if_pos rfl]

theorem translate_segments_identity_witness :
    translateSegments c2demoSegs (['e', 'n']) (['e', 'n']) c2demoResp
      = c2demoSegs :=
  translate_segments_identity c2demoSegs (['e', 'n']) (['e', 'n'])
    c2demoResp rfl

/-- C8: any stage exception in either background task is caught at the
orchestrator boundary: the job's record (when still registered) ends
failed, carrying the exception's message as its error, with progress
reset to 0; and on every run, with or without exceptions, the record ends
in a terminal status (transcription_complete or failed for the first
task, completed or failed for the continuation), never stuck
mid-stage. -/
theorem background_failure_boundary :
    (∀ (jobs : JobMap) (id : List Char) (eo : Except (List Char) Unit)
        (to2 : Except (List Char) TranscriptionResult)
        (src : Option (List Char)) (e : List Char) (j : Job),
      jLookup jobs id = some j →
      (eo = Except.error e ∨ (eo = Except.ok () ∧ to2 = Except.error e)) →
      (jLookup (processVideoBackground jobs id eo to2 src) id).map
          Job.status = some JobStatus.failed ∧
      (jLookup (processVideoBackground jobs id eo to2 src) id).bind
          Job.error = some e ∧
      (jLookup (processVideoBackground jobs id eo to2 src) id).map
          Job.progress = some 0) ∧
    (∀ (jobs : JobMap) (id : List Char) (edited : TranscriptionResult)
        (tr : Except (List Char) (List Segment))
        (so : Except (List Char) (List Char))
        (ro : Except (List Char) (List Nat)) (e : List Char) (j : Job),
      jLookup jobs id = some j →
      ((j.sourceLanguage ≠ j.targetLanguage ∧ tr = Except.error e) ∨
       ((j.sourceLanguage = j.targetLanguage ∨ ∃ ts, tr = Except.ok ts) ∧
         so = Except.error e) ∨
       ((j.sourceLanguage = j.targetLanguage ∨ ∃ ts, tr = Except.ok ts) ∧
         (∃ sc, so = Except.ok sc) ∧ (∃ vd, j.videoData = some vd) ∧
         ro = Except.error e)) →
      (jLookup (continueProcessingAfterTranscription jobs id edited tr so ro)
          id).map Job.status = some JobStatus.failed ∧
      (jLookup (continueProcessingAfterTranscription jobs id edited tr so ro)
          id).bind Job.error = some e ∧
      (jLookup (continueProcessingAfterTranscription jobs id edited tr so ro)
          id).map Job.progress = some 0) ∧
    (∀ (jobs : JobMap) (id : List Char) (eo : Except (List Char) Unit)
        (to2 : Except (List Char) TranscriptionResult)
        (src : Option (List Char)) (j : Job),
      jLookup jobs id = some j →
      (jLookup (processVideoBackground jobs id eo to2 src) id).map
          Job.status = some JobStatus.transcriptionComplete ∨
      (jLookup (processVideoBackground jobs id eo to2 src) id).map
          Job.status = some JobStatus.failed) ∧
    (∀ (jobs : JobMap) (id : List Char) (edited : TranscriptionResult)
        (tr : Except (List Char) (List Segment))
        (so : Except (List Char) (List Char))
        (ro : Except (List Char) (List Nat)) (j : Job),
      jLookup jobs id = some j →
      (jLookup (continueProcessingAfterTranscription jobs id edited tr so ro)
          id).map Job.status = some JobStatus.completed ∨
      (jLookup (continueProcessingAfterTranscription jobs id edited tr so ro)
          id).map Job.status = some JobStatus.failed) := by
  refine ⟨?_, ?_, ?_, ?_⟩
  · intro jobs id eo to2 src e j hj hout
    simp only [processVideoBackground, hj]
    rcases hout with rfl | ⟨rfl, rfl⟩
    · rw [failJob_spec _ _ _ _ (jLookup_jInsert jobs id _)]
      exact ⟨rfl, rfl, rfl⟩
    · rw [failJob_spec _ _ _ _ (jLookup_jInsert _ id _)]
      exact ⟨rfl, rfl, rfl⟩
  · intro jobs id edited tr so ro e j hj hout
    simp only [continueProcessingAfterTranscription, hj]
    rcases hout with ⟨hne, rfl⟩ | ⟨hsrc, rfl⟩ | ⟨hsrc, ⟨sc, rfl⟩, ⟨vd, hvd⟩, rfl⟩
    · rw [finalTranscription_error j edited e hne]
      rw [failJob_spec _ _ _ _ (jLookup_jInsert jobs id _)]
      exact ⟨rfl, rfl, rfl⟩
    · obtain ⟨ftr, hftr⟩ := finalTranscription_ok j edited tr hsrc
      rw [hftr]
      rw [failJob_spec _ _ _ _ (jLookup_jInsert _ id _)]
      exact ⟨rfl, rfl, rfl⟩
    · obtain ⟨ftr, hftr⟩ := finalTranscription_ok j edited tr hsrc
      rw [hftr, hvd]
      rw [failJob_spec _ _ _ _ (jLookup_jInsert _ id _)]
      exact ⟨rfl, rfl, rfl⟩
  · intro jobs id eo to2 src j hj
    simp only [processVideoBackground, hj]
    rcases eo with e | -
    · right
      rw [failJob_spec _ _ _ _ (jLookup_jInsert jobs id _)]
      rfl
    · rcases to2 with e | tr2
      · right
        rw [failJob_spec _ _ _ _ (jLookup_jInsert _ id _)]
        rfl
      · left
        rw [jLookup_jInsert]
        rfl
  · intro jobs id edited tr so ro j hj
    simp only [continueProcessingAfterTranscription, hj]
    rcases hftr : finalTranscription j edited tr with e | ftr
    · right
      rw [failJob_spec _ _ _ _ (jLookup_jInsert jobs id _)]
      rfl
    · rcases so with e | sc
      · right
        rw [failJob_spec _ _ _ _ (jLookup_jInsert _ id _)]
        rfl
      · rcases hvd : j.videoData with - | vd
        · right
          rw [failJob_spec _ _ _ _ (jLookup_jInsert _ id _)]
          rfl
        · rcases ro with e | rb
          · right
            rw [failJob_spec _ _ _ _ (jLookup_jInsert _ id _)]
            rfl
          · left
            rw [jLookup_jInsert]
            rfl

theorem background_failure_boundary_witness :
    (jLookup (processVideoBackground c8demoJobs (['j'])
      (Except.error ['b', 'o', 'o', 'm'])
      (Except.ok c8demoTr) none)
      (['j'])).map Job.status = some JobStatus.failed ∧
    (jLookup (processVideoBackground c8demoJobs (['j'])
      (Except.error ['b', 'o', 'o', 'm'])
      (Except.ok c8demoTr) none)
      (['j'])).bind Job.error = some (['b', 'o', 'o', 'm']) := by
  have h := background_failure_boundary.1 c8demoJobs (['j'])
    (Except.error ['b', 'o', 'o', 'm'])
    (Except.ok c8demoTr) none
    (['b', 'o', 'o', 'm']) c8demoJob (by rw [c8demoJobs]; rfl) (Or.inl rfl)
  exact ⟨h.1, h.2.1⟩

/-- C9: on an existing job whose status is not transcription_complete,
the continue endpoint fails with InvalidState; on a completed job holding
rendered bytes, download returns those bytes and purges the job record,
and a second download on the purged registry fails with NotFound. -/
theorem job_guards :
    (∀ (jobs : JobMap) (id : List Char) (j : Job),
      jLookup jobs id = some j →
      j.status ≠ JobStatus.transcriptionComplete →
      continueWithTranscription jobs id = Except.error ApiError.invalidState) ∧
    (∀ (jobs : JobMap) (id : List Char) (j : Job) (b : List Nat),
      jLookup jobs id = some j →
      j.status = JobStatus.completed →
      j.resultVideo = some b →
      downloadVideo jobs id = Except.ok (b, jErase jobs id) ∧
      downloadVideo (jErase jobs id) id = Except.error ApiError.notFound) := by
  constructor
  · intro jobs id j hj hst
    simp only [continueWithTranscription, hj]
    rw [if_pos hst]
  · intro jobs id j b hj hst hres
    constructor
    · simp only [downloadVideo, hj, hres]
      rw [if_neg (by rw [hst]; intro hcon; exact hcon rfl)]
    · simp only [downloadVideo, jLookup_jErase]

theorem job_guards_witness :
    continueWithTranscription c9demoJobs (['d'])
      = Except.error ApiError.invalidState ∧
    downloadVideo c9demoJobs (['d'])
      = Except.ok ([7], jErase c9demoJobs (['d'])) ∧
    downloadVideo (jErase c9demoJobs (['d'])) (['d'])
      = Except.error ApiError.notFound := by
  have h1 := job_guards.1 c9demoJobs (['d']) c9demoJob
    (by rw [c9demoJobs]; rfl) (by rw [c9demoJob]; intro hcon; cases hcon)
  have h2 := job_guards.2 c9demoJobs (['d']) c9demoJob [7]
    (by rw [c9demoJobs]; rfl) (by rw [c9demoJob]) (by rw [c9demoJob])
  exact ⟨h1, h2.1, h2.2⟩

/-! ## Heap-view theorems: what normalization mutates -/

/-- C10 counterexample: on the out-of-order, non-overlapping input
c10storeA the normalizer changes nothing in the store — no start or end
field of any input object is overwritten — and only the internal list it
returns is sorted ([1, 0]); the caller's list still reads its objects in
the original order, whose starts (10 then 0) are not sorted.  This
refutes the claim that the caller's list is sorted and the input
objects' fields overwritten on every call. -/
theorem heap_optimize_counterexample :
    heapOptimize c10storeA [0, 1] = (c10storeA, [1, 0]) ∧
    ¬ ((storeGet c10storeA 0).start ≤ (storeGet c10storeA 1).start) := by
  have h1 : pyStrip (['b', ' ', 'c']) = ['b', ' ', 'c'] := by decide
  have h2 : pyStrip (['a', ' ', 'b']) = ['a', ' ', 'b'] := by decide
  constructor
  · norm_num [heapOptimize, heapPhase1, heapRemoveOverlaps,
      heapRemoveOverlapsGo, pySort, pySortInsert, storeGet, storeSet,
      c10storeA, h1, h2, List.cons_ne_nil]
  · norm_num [storeGet, c10storeA]

/-- C10 (amended): the normalizer does mutate the start and end fields of
the caller's segment objects in place — here the overlap repair rewrites
the second object's start to previous.end + 0.1 = 5.1, so the caller's
TranscriptionResult no longer holds the original timing 3 — while the
caller's own list of objects is never reordered (the sort happens on the
internal result list; the returned list here coincides with [0, 1]). -/
theorem heap_optimize_mutation :
    heapOptimize c10storeB [0, 1] = (c10storeB2, [0, 1]) ∧
    storeGet c10storeB2 1 ≠ storeGet c10storeB 1 ∧
    (storeGet c10storeB2 1).start = 51 / 10 ∧
    (storeGet c10storeB 1).start = 3 := by
  have h1 : pyStrip (['a', ' ', 'b']) = ['a', ' ', 'b'] := by decide
  have h2 : pyStrip (['c', ' ', 'd']) = ['c', ' ', 'd'] := by decide
  refine ⟨?_, ?_, ?_, ?_⟩
  · norm_num [heapOptimize, heapPhase1, heapRemoveOverlaps,
      heapRemoveOverlapsGo, pySort, pySortInsert, storeGet, storeSet,
      c10storeB, c10storeB2, h1, h2, List.cons_ne_nil, Segment.mk.injEq]
  · norm_num [storeGet, c10storeB, c10storeB2, Segment.mk.injEq]
  · norm_num [storeGet, c10storeB2]
  · norm_num [storeGet, c10storeB]


